import Mathlib

/-!
# Fuzzy-Join pipeline: shallow embedding and verification

Embedding of `fuzzy_join.py`.  Python strings are modelled as `List Char`;
the edit-distance metric (`textdistance.damerau_levenshtein`) is an external
library function that the spec treats as a pluggable `DistanceMetric`, so the
pipeline is parameterised over `dist : Str → Str → Nat`.

The source builds a Python dict keyed by the string `f"{s1} _and_ {s2}"`
(lines 27-31 and `dl_dist_func`, lines 89-96), turns it into a dataframe,
splits the keys on the literal pattern `"_and_"` (line 42), renames the two
split columns (line 43, a step that raises `ValueError: Length mismatch`
whenever the number of expanded columns differs from 2), groups by the first
split column taking per group the row of minimal distance (lines 51-54), and
finally left-joins the result onto the second dataset (lines 70-74).
-/

namespace FuzzyJoin

/-- Strings are modelled as lists of characters (Python `str`). -/
abbrev Str := List Char

/-- The literal split pattern `_and_` (source lines 31 and 42). -/
def andSep : Str := ['_', 'a', 'n', 'd', '_']

/-- The dict key `f"{s1} _and_ {s2}"` built by the scoring loop (line 31). -/
def mkKey (s1 s2 : Str) : Str := s1 ++ [' '] ++ andSep ++ [' '] ++ s2

/-- `leadsWith pat s` holds when `pat` is an initial segment of `s`. -/
def leadsWith : Str → Str → Bool
  | [], _ => true
  | _ :: _, [] => false
  | a :: as, b :: bs => a = b && leadsWith as bs

/-- `containsSub sep s`: `sep` occurs as a contiguous substring of `s`. -/
def containsSub (sep : Str) : Str → Bool
  | [] => sep.isEmpty
  | s@(_ :: rest) => leadsWith sep s || containsSub sep rest

/-- `re.split` on the literal pattern `_and_`: cut at each non-overlapping
occurrence, scanning left to right (pandas `str.split(pat="_and_")`, source
line 42; a 5-character pattern is compiled as a regex by pandas and handed to
`re.split`).  `acc` holds the current fragment, reversed. -/
def splitAnd : Str → Str → List Str
  | '_' :: 'a' :: 'n' :: 'd' :: '_' :: t, acc => acc.reverse :: splitAnd t []
  | c :: rest, acc => splitAnd rest (c :: acc)
  | [], acc => [acc.reverse]

/-- Python `str.lstrip()` (with the default whitespace set). -/
def lstrip (s : Str) : Str := s.dropWhile (·.isWhitespace)

/-- Python `str.rstrip()` (with the default whitespace set). -/
def rstrip (s : Str) : Str := (s.reverse.dropWhile (·.isWhitespace)).reverse

/-- Python `str.strip()` as used at source lines 62-63 and 70-71. -/
def strip (s : Str) : Str := lstrip (rstrip s)

/-- Python dict assignment `d[k] = v`: replace the value in place when the
key is present (its position is kept, per dict insertion-order semantics),
otherwise append the new binding at the end. -/
def dictInsert (d : List (Str × Nat)) (k : Str) (v : Nat) : List (Str × Nat) :=
  if d.any (fun p => p.1 = k) then
    d.map (fun p => if p.1 = k then (p.1, v) else p)
  else
    d ++ [(k, v)]

/-- The scoring pass (source lines 27-31 and `dl_dist_func`, lines 89-96):
the nested loop over the left and right sequences, accumulating
`dl_dist[f"{s1} _and_ {s2}"] = damerau_levenshtein(s1, s2)` into an
insertion-ordered dict. -/
def dl_dist_func (dist : Str → Str → Nat) (arr1 arr2 : List Str) : List (Str × Nat) :=
  arr1.foldl
    (fun d s1 => arr2.foldl (fun d2 s2 => dictInsert d2 (mkKey s1 s2) (dist s1 s2)) d)
    []

/-- The parallel driver (source lines 107-109): `zip([data1], [data2])`
produces a single chunk pair, so `Parallel` performs exactly one call of
`dl_dist_func` and returns the singleton list of its result. -/
def dl_dist_par (dist : Str → Str → Nat) (arr1 arr2 : List Str) :
    List (List (Str × Nat)) :=
  [dl_dist_func dist arr1 arr2]

/-- The stream of insertions performed by the nested loop of `dl_dist_func`,
in execution order (left-major). -/
def pairsList (dist : Str → Str → Nat) (arr1 arr2 : List Str) : List (Str × Nat) :=
  (arr1.map (fun s1 => arr2.map (fun s2 => (mkKey s1 s2, dist s1 s2)))).flatten

/-- One row of `dl_dist_df_proc` (source lines 42-44): the two split halves
of the dict key and the distance. -/
structure SRow where
  a1 : Str
  a2 : Str
  d : Nat

deriving instance DecidableEq for SRow

/-- Column split counts of the raw frame; pandas `expand=True` creates
`max` many columns. -/
def partCounts (dl : List (Str × Nat)) : List Nat :=
  dl.map (fun e => (splitAnd e.1 []).length)

/-- The `ValueError` raised by `df.columns = [...]` on a column-count
mismatch. -/
def lengthMismatch : String := "ValueError: Length mismatch"

/-- Parse one dict entry into a processed row (source lines 42-44). -/
def parseEntry (e : Str × Nat) : SRow :=
  match splitAnd e.1 [] with
  | x1 :: x2 :: _ => ⟨x1, x2, e.2⟩
  | _ => ⟨[], [], e.2⟩

/-- The reshape of the dict into `dl_dist_df_proc` (source lines 40-44).
`pd.DataFrame.from_dict` on the empty dict yields a frame with a single
column after `reset_index`, so the two-name rename of line 41 raises; on a
non-empty dict line 41 succeeds (index + one value column) and the rename of
line 43 raises exactly when the number of columns produced by
`str.split(expand=True)` — the maximum split count — is not 2. -/
def parseRows (dl : List (Str × Nat)) : Except String (List SRow) :=
  if (partCounts dl).max? = some 2 then
    .ok (dl.map parseEntry)
  else
    .error lengthMismatch

/-- Lexicographic comparison of strings by character code points, Python's
`<` on `str`, which is the order pandas' `groupby(sort=True)` uses for its
group keys. -/
def lexLe : Str → Str → Bool
  | [], _ => true
  | _ :: _, [] => false
  | a :: as, b :: bs => if a = b then lexLe as bs else decide (a < b)

/-- `lexLe` as a relation, for sorting the groupby keys. -/
def keyLe (a b : Str) : Prop := lexLe a b = true

instance : DecidableRel keyLe := fun a b => inferInstanceAs (Decidable (lexLe a b = true))

/-- `df.sort_values("dist", ascending=True).head(1)` (source lines 52-53):
the first row attaining the minimal distance.  numpy's sort is deterministic
and is modelled here as keeping, among equal distances, the earliest row. -/
def bestRow (x : SRow) (xs : List SRow) : SRow :=
  xs.foldl (fun b y => if y.d < b.d then y else b) x

/-- `sort_values("dist").head(1)` applied to one non-empty group, `none` on
an empty one. -/
def selList (l : List SRow) : Option SRow :=
  match l with
  | [] => none
  | x :: xs => some (bestRow x xs)

/-- Selection for one group key: the rows of the frame whose `address_1`
equals `k`, reduced by `sort_values("dist").head(1)`. -/
def selGroup (rows : List SRow) (k : Str) : Option SRow :=
  selList (rows.filter (fun r => r.a1 = k))

/-- The distinct group keys of `groupby("address_1")`, sorted: pandas
`groupby` with its default `sort=True` processes the distinct keys in
ascending order. -/
def sortedKeys (rows : List SRow) : List Str :=
  List.insertionSort keyLe ((rows.map SRow.a1).dedup)

/-- `dl_dist_fin` (source lines 51-54): group the processed frame by
`address_1` (pandas sorts the distinct group keys), select per group the
minimal-distance row, and concatenate the selections in sorted-key order
(`reset_index(drop=True)` renumbers but keeps that order). -/
def dl_dist_fin (rows : List SRow) : List SRow :=
  (sortedKeys rows).filterMap (selGroup rows)

/-- The matching pass end to end: score (lines 27-31), reshape (lines
40-44), group and select (lines 51-54). -/
def fuzzy_pipeline (dist : Str → Str → Nat) (L R : List Str) :
    Except String (List SRow) :=
  (parseRows (dl_dist_func dist L R)).map dl_dist_fin

/-- Modelled from the spec: the orchestrator's merge step.  The source's
parallel variant (lines 107-109) only ever builds one chunk, so the
concatenation of several chunk results before selection (spec §4.3: results
from all chunk invocations are concatenated, the right sequence never
partitioned) has no counterpart under `src/`; it is modelled here as the
flattening of the per-chunk `dl_dist_func` outputs. -/
def chunk_rows (dist : Str → Str → Nat) (chunks : List (List Str)) (R : List Str) :
    List (Str × Nat) :=
  (chunks.map (fun c => dl_dist_func dist c R)).flatten

/-- Modelled from the spec: the chunked matching pass — score each chunk
against the whole right sequence, concatenate, then reshape and select
exactly as the sequential pass does. -/
def chunked_pipeline (dist : Str → Str → Nat) (chunks : List (List Str))
    (R : List Str) : Except String (List SRow) :=
  (parseRows (chunk_rows dist chunks R)).map dl_dist_fin

/-- One left row's contribution to `pd.merge(..., how="left")`: the row
paired with every matching right row, or with `none` when no right row
matches (pandas fills the right-side fields with `NaN`). -/
def joinOne (rs : List (Str × β)) (a : Str × α) :
    List ((Str × α) × Option (Str × β)) :=
  match rs.filter (fun b => b.1 = a.1) with
  | [] => [(a, none)]
  | m :: ms => (m :: ms).map (fun b => (a, some b))

/-- `pd.merge(..., how="left", left_on, right_on)` (source line 74). -/
def leftJoin (ls : List (Str × α)) (rs : List (Str × β)) :
    List ((Str × α) × Option (Str × β)) :=
  ls.flatMap (joinOne rs)

/-- The keys of the full cross product, in loop order (used to state the
corrected pair count of the scoring pass). -/
def crossKeys (L R : List Str) : List Str :=
  (L.map (fun s1 => R.map (fun s2 => mkKey s1 s2))).flatten

/-- The block of insertions one left value contributes: its pairs with every
right value, in right-sequence order. -/
def block (dist : Str → Str → Nat) (R : List Str) (s1 : Str) : List (Str × Nat) :=
  R.map (fun s2 => (mkKey s1 s2, dist s1 s2))

/-- First-occurrence filter on an insertion stream: keep an entry iff its
key was not seen before.  Building a dict from a value-consistent stream is
exactly this filter. -/
def ddfAux (seen : List Str) : List (Str × Nat) → List (Str × Nat)
  | [] => []
  | e :: es => if e.1 ∈ seen then ddfAux seen es else e :: ddfAux (e.1 :: seen) es

/-- A stream is value-consistent when equal keys carry equal values. -/
def Consistent (l : List (Str × Nat)) : Prop :=
  ∀ e ∈ l, ∀ e' ∈ l, e.1 = e'.1 → e.2 = e'.2

/-- A key-determined predicate on dict entries. -/
def keyPred (P : Str → Bool) : Str × Nat → Bool := fun e => P e.1

/-- The `address_1` column value determined by a dict key (the first
fragment of its split, `[]` in the degenerate sub-two-fragment case, in
which the rename has raised anyway). -/
def keyA1 (k : Str) : Str :=
  match splitAnd k [] with
  | x1 :: _ :: _ => x1
  | _ => []

/-- The final join assembly (source lines 70-74): strip the join keys on
both sides, then left-join `data_both` onto `data2` on
`address_2 = Address`.  Rows are modelled as join key paired with the rest
of the row. -/
def data_fin (both : List (Str × α)) (d2 : List (Str × β)) :
    List ((Str × α) × Option (Str × β)) :=
  leftJoin (both.map (fun r => (strip r.1, r.2))) (d2.map (fun r => (strip r.1, r.2)))

/-- Dict lookup, for stating run-to-run agreement key by key. -/
def lookupD (dl : List (Str × Nat)) (k : Str) : Option Nat :=
  (dl.find? (fun p => p.1 = k)).map (fun p => p.2)

/-- A concrete metric used to instantiate the pluggable `DistanceMetric` in
witnesses and counterexamples (the pipeline properties at issue do not
depend on the metric's values). -/
def oneDist : Str → Str → Nat := fun _ _ => 1

instance {ε σ : Type} [DecidableEq ε] [DecidableEq σ] : DecidableEq (Except ε σ) :=
  fun a b =>
    match a, b with
    | .ok x, .ok y => decidable_of_iff (x = y) (by simp)
    | .error e, .error f => decidable_of_iff (e = f) (by simp)
    | .ok _, .error _ => isFalse (fun h => by cases h)
    | .error _, .ok _ => isFalse (fun h => by cases h)

/-! ## Properties of `leadsWith` and `containsSub` -/

lemma leadsWith_append_self (p t : Str) : leadsWith p (p ++ t) = true := by
  induction p with
  | nil => rfl
  | cons x xs ih => simp [leadsWith, ih]

lemma leadsWith_sep_shape {s : Str} (h : leadsWith andSep s = true) :
    ∃ t, s = andSep ++ t := by
  match s with
  | a :: b :: c :: d :: e :: t =>
    simp [leadsWith, andSep] at h
    obtain ⟨h1, h2, h3, h4, h5⟩ := h
    subst h1; subst h2; subst h3; subst h4; subst h5
    exact ⟨t, rfl⟩
  | [] => simp [leadsWith, andSep] at h
  | [a] => simp [leadsWith, andSep] at h
  | [a, b] => simp [leadsWith, andSep] at h
  | [a, b, c] => simp [leadsWith, andSep] at h
  | [a, b, c, d] => simp [leadsWith, andSep] at h

lemma containsSub_of_leadsWith {sep s : Str} (h : leadsWith sep s = true) :
    containsSub sep s = true := by
  match s with
  | [] =>
    match sep with
    | [] => rfl
    | x :: xs => simp [leadsWith] at h
  | c :: rest => simp [containsSub, h]

lemma containsSub_sandwich (x y : Str) :
    containsSub andSep (x ++ andSep ++ y) = true := by
  induction x with
  | nil => exact containsSub_of_leadsWith (by simpa using leadsWith_append_self andSep y)
  | cons c x' ih =>
    simp only [containsSub, List.cons_append, Bool.or_eq_true]
    exact Or.inr (by simpa [List.append_assoc] using ih)

lemma containsSub_cons_false {sep : Str} {c : Char} {rest : Str}
    (h : containsSub sep (c :: rest) = false) :
    leadsWith sep (c :: rest) = false ∧ containsSub sep rest = false := by
  simpa [containsSub] using h

/-! ## Unfolding lemmas for `splitAnd` -/

lemma splitAnd_nil (acc : Str) : splitAnd [] acc = [acc.reverse] := rfl

lemma splitAnd_pos {s : Str} (acc : Str) (h : leadsWith andSep s = true) :
    splitAnd s acc = acc.reverse :: splitAnd (s.drop 5) [] := by
  obtain ⟨t, rfl⟩ := leadsWith_sep_shape h
  rfl

lemma splitAnd_neg {c : Char} {rest : Str} (acc : Str)
    (h : leadsWith andSep (c :: rest) = false) :
    splitAnd (c :: rest) acc = splitAnd rest (c :: acc) := by
  rw [splitAnd.eq_def]
  split
  · rename_i t ht
    rw [ht] at h
    simp [leadsWith, andSep] at h
  · rename_i c' rest' heq
    injection heq with h1 h2
    subst h1; subst h2
    rfl
  · rename_i heq
    simp at heq

/-! ## Structure of `splitAnd` results -/

lemma splitAnd_length_pos (s acc : Str) : 1 ≤ (splitAnd s acc).length := by
  induction s generalizing acc with
  | nil => simp [splitAnd_nil]
  | cons c rest ih =>
    by_cases h : leadsWith andSep (c :: rest) = true
    · rw [splitAnd_pos acc h]
      simp
    · rw [splitAnd_neg acc (by simpa using h)]
      exact ih _

lemma splitAnd_eq_single {s : Str} (acc : Str)
    (h : containsSub andSep s = false) :
    splitAnd s acc = [acc.reverse ++ s] := by
  induction s generalizing acc with
  | nil => simp [splitAnd_nil]
  | cons c rest ih =>
    obtain ⟨h1, h2⟩ := containsSub_cons_false h
    rw [splitAnd_neg acc h1, ih _ h2]
    simp

lemma splitAnd_of_length_one {s acc : Str}
    (h : (splitAnd s acc).length = 1) :
    splitAnd s acc = [acc.reverse ++ s] := by
  induction s generalizing acc with
  | nil => simp [splitAnd_nil]
  | cons c rest ih =>
    by_cases hl : leadsWith andSep (c :: rest) = true
    · rw [splitAnd_pos acc hl] at h
      have := splitAnd_length_pos ((c :: rest).drop 5) []
      simp only [List.length_cons] at h
      omega
    · rw [splitAnd_neg acc (by simpa using hl)] at h ⊢
      rw [ih h]
      simp

lemma two_le_splitAnd_length {s : Str} (acc : Str)
    (h : containsSub andSep s = true) :
    2 ≤ (splitAnd s acc).length := by
  induction s generalizing acc with
  | nil => simp [containsSub, andSep] at h
  | cons c rest ih =>
    by_cases hl : leadsWith andSep (c :: rest) = true
    · rw [splitAnd_pos acc hl]
      have := splitAnd_length_pos ((c :: rest).drop 5) []
      simp only [List.length_cons]
      omega
    · have h2 : containsSub andSep rest = true := by
        simp [containsSub, hl] at h
        simpa using h
      rw [splitAnd_neg acc (by simpa using hl)]
      exact ih _ h2

lemma mem_of_getLast?_eq : ∀ {l : Str} {x : Char}, l.getLast? = some x → x ∈ l := by
  intro l
  induction l with
  | nil => intro x h; simp at h
  | cons c rest ih =>
    intro x h
    cases rest with
    | nil =>
      simp at h
      simp [h]
    | cons b bs =>
      rw [List.getLast?_cons_cons] at h
      exact List.mem_cons_of_mem _ (ih h)

lemma space_not_mem_andSep : ' ' ∉ andSep := by decide

/-- Scanning through a fragment that ends in a space and contains no
occurrence of the separator: the scan cuts exactly at the explicit separator
that follows the fragment. -/
lemma splitAnd_through :
    ∀ a b acc : Str, (a = [] ∨ a.getLast? = some ' ') →
      containsSub andSep a = false →
      splitAnd (a ++ andSep ++ b) acc = (acc.reverse ++ a) :: splitAnd b [] := by
  intro a
  induction a with
  | nil =>
    intro b acc _ _
    have h1 : leadsWith andSep (([] : Str) ++ andSep ++ b) = true := by
      simpa using leadsWith_append_self andSep b
    have hd : (([] : Str) ++ andSep ++ b).drop 5 = b := by
      rw [List.nil_append]
      exact List.drop_left andSep b
    rw [splitAnd_pos acc h1, hd]
    simp
  | cons c a' ih =>
    intro b acc hsp hno
    obtain ⟨h1, h2⟩ := containsSub_cons_false hno
    have hlast : (c :: a').getLast? = some ' ' := by
      rcases hsp with h | h
      · exact absurd h (by simp)
      · exact h
    have hlead : leadsWith andSep ((c :: a') ++ andSep ++ b) = false := by
      rw [← Bool.not_eq_true]
      intro hl
      obtain ⟨t, ht⟩ := leadsWith_sep_shape hl
      rw [List.append_assoc] at ht
      rcases List.append_eq_append_iff.mp ht with ⟨u, hu1, _⟩ | ⟨u, hu1, _⟩
      · exact space_not_mem_andSep
          (hu1 ▸ List.mem_append_left u (mem_of_getLast?_eq hlast))
      · have hpre : leadsWith andSep (c :: a') = true := by
          rw [hu1]; exact leadsWith_append_self _ _
        rw [hpre] at h1
        exact Bool.true_eq_false.mp h1
    have hlead' : leadsWith andSep (c :: (a' ++ andSep ++ b)) = false := by
      simpa [List.append_assoc] using hlead
    have hsp' : a' = [] ∨ a'.getLast? = some ' ' := by
      cases a' with
      | nil => exact Or.inl rfl
      | cons b1 bs => exact Or.inr (by rw [← List.getLast?_cons_cons]; exact hlast)
    calc splitAnd ((c :: a') ++ andSep ++ b) acc
        = splitAnd (c :: (a' ++ andSep ++ b)) acc := by simp [List.append_assoc]
      _ = splitAnd (a' ++ andSep ++ b) (c :: acc) := splitAnd_neg acc hlead'
      _ = ((c :: acc).reverse ++ a') :: splitAnd b [] := ih b (c :: acc) hsp' h2
      _ = (acc.reverse ++ (c :: a')) :: splitAnd b [] := by
          simp [List.reverse_cons, List.append_assoc]

/-- When the scan of `a ++ andSep ++ b` produces exactly two fragments and
`a` ends in a space, the two fragments are exactly `a` and `b` — a split
count of 2 certifies that the explicit separator is the only cut. -/
lemma splitAnd_sandwich_two :
    ∀ a b acc : Str, (a = [] ∨ a.getLast? = some ' ') →
      (splitAnd (a ++ andSep ++ b) acc).length = 2 →
      splitAnd (a ++ andSep ++ b) acc = [acc.reverse ++ a, b] := by
  intro a
  induction a with
  | nil =>
    intro b acc _ h2
    have h1 : leadsWith andSep (([] : Str) ++ andSep ++ b) = true := by
      simpa using leadsWith_append_self andSep b
    have hd : (([] : Str) ++ andSep ++ b).drop 5 = b := by
      rw [List.nil_append]
      exact List.drop_left andSep b
    rw [splitAnd_pos acc h1, hd] at h2 ⊢
    simp only [List.length_cons] at h2
    have hb1 : (splitAnd b []).length = 1 := by omega
    rw [splitAnd_of_length_one hb1]
    simp
  | cons c a' ih =>
    intro b acc hsp h2
    have hlast : (c :: a').getLast? = some ' ' := by
      rcases hsp with h | h
      · exact absurd h (by simp)
      · exact h
    have hlead : leadsWith andSep ((c :: a') ++ andSep ++ b) = false := by
      rw [← Bool.not_eq_true]
      intro hl
      obtain ⟨t, ht⟩ := leadsWith_sep_shape hl
      rw [List.append_assoc] at ht
      rcases List.append_eq_append_iff.mp ht with ⟨u, hu1, _⟩ | ⟨u, hu1, _⟩
      · exact space_not_mem_andSep
          (hu1 ▸ List.mem_append_left u (mem_of_getLast?_eq hlast))
      · -- the head of the string is itself an occurrence: after cutting it,
        -- the explicit separator still lies ahead, forcing a third fragment
        rw [splitAnd_pos acc hl] at h2
        have hd : ((c :: a') ++ andSep ++ b).drop 5 = u ++ (andSep ++ b) := by
          rw [hu1]
          have : (andSep ++ u) ++ andSep ++ b = andSep ++ (u ++ (andSep ++ b)) := by
            simp [List.append_assoc]
          rw [this]
          exact List.drop_left andSep (u ++ (andSep ++ b))
        rw [hd] at h2
        have hocc : containsSub andSep (u ++ (andSep ++ b)) = true := by
          simpa [List.append_assoc] using containsSub_sandwich u b
        have hge := two_le_splitAnd_length ([] : Str) hocc
        simp only [List.length_cons] at h2
        omega
    have hlead' : leadsWith andSep (c :: (a' ++ andSep ++ b)) = false := by
      simpa [List.append_assoc] using hlead
    have hsp' : a' = [] ∨ a'.getLast? = some ' ' := by
      cases a' with
      | nil => exact Or.inl rfl
      | cons b1 bs => exact Or.inr (by rw [← List.getLast?_cons_cons]; exact hlast)
    have hstep : splitAnd ((c :: a') ++ andSep ++ b) acc
        = splitAnd (a' ++ andSep ++ b) (c :: acc) := by
      calc splitAnd ((c :: a') ++ andSep ++ b) acc
          = splitAnd (c :: (a' ++ andSep ++ b)) acc := by simp [List.append_assoc]
        _ = splitAnd (a' ++ andSep ++ b) (c :: acc) := splitAnd_neg acc hlead'
    rw [hstep] at h2 ⊢
    rw [ih b (c :: acc) hsp' h2]
    simp [List.reverse_cons, List.append_assoc]

/-! ## Splitting the scoring keys `f"{s1} _and_ {s2}"` -/

lemma mkKey_eq_sandwich (s1 s2 : Str) :
    mkKey s1 s2 = (s1 ++ [' ']) ++ andSep ++ (' ' :: s2) := by
  simp [mkKey, List.append_assoc]

lemma leadsWith_append_space :
    ∀ p : Str, ' ' ∉ p → ∀ x : Str, leadsWith p (x ++ [' ']) = leadsWith p x := by
  intro p
  induction p with
  | nil => intro _ x; rfl
  | cons q qs ih =>
    intro hp x
    have hq : ¬ (q = ' ') := fun h => hp (by simp [h])
    cases x with
    | nil =>
      simp [leadsWith, hq]
    | cons c cs =>
      have hqs : ' ' ∉ qs := fun h => hp (List.mem_cons_of_mem _ h)
      simp only [List.cons_append, leadsWith, List.append_eq]
      rw [ih hqs cs]

lemma containsSub_append_space :
    ∀ {s : Str}, containsSub andSep s = false →
      containsSub andSep (s ++ [' ']) = false := by
  intro s
  induction s with
  | nil => intro _; decide
  | cons c rest ih =>
    intro h
    obtain ⟨h1, h2⟩ := containsSub_cons_false h
    have hl : leadsWith andSep ((c :: rest) ++ [' ']) = false := by
      rw [leadsWith_append_space andSep space_not_mem_andSep (c :: rest)]
      exact h1
    simp only [List.cons_append] at hl
    simp [containsSub, hl, ih h2]

lemma containsSub_cons_space {s : Str} (h : containsSub andSep s = false) :
    containsSub andSep (' ' :: s) = false := by
  have hl : leadsWith andSep (' ' :: s) = false := by
    simp [leadsWith, andSep]
  simp [containsSub, hl, h]

/-- A scoring key always splits into at least two fragments: the explicit
separator is an occurrence. -/
lemma two_le_key_splits (s1 s2 : Str) :
    2 ≤ (splitAnd (mkKey s1 s2) []).length := by
  rw [mkKey_eq_sandwich]
  exact two_le_splitAnd_length [] (containsSub_sandwich (s1 ++ [' ']) (' ' :: s2))

/-- When neither side contains the separator, the key splits exactly into
its two halves (with the separator's surrounding spaces attached). -/
lemma splitAnd_key {s1 s2 : Str} (h1 : containsSub andSep s1 = false)
    (h2 : containsSub andSep s2 = false) :
    splitAnd (mkKey s1 s2) [] = [s1 ++ [' '], ' ' :: s2] := by
  rw [mkKey_eq_sandwich]
  rw [splitAnd_through (s1 ++ [' ']) (' ' :: s2) []
    (Or.inr (List.getLast?_concat s1)) (containsSub_append_space h1)]
  rw [splitAnd_eq_single [] (containsSub_cons_space h2)]
  simp

/-- A split count of 2 already forces the canonical decomposition. -/
lemma splitAnd_key_two {s1 s2 : Str}
    (h : (splitAnd (mkKey s1 s2) []).length = 2) :
    splitAnd (mkKey s1 s2) [] = [s1 ++ [' '], ' ' :: s2] := by
  rw [mkKey_eq_sandwich] at h ⊢
  simpa using splitAnd_sandwich_two (s1 ++ [' ']) (' ' :: s2) []
    (Or.inr (List.getLast?_concat s1)) h

/-- On keys whose split count is 2, `mkKey` is injective. -/
lemma mkKey_inj_two {s1 s2 t1 t2 : Str} (he : mkKey s1 s2 = mkKey t1 t2)
    (h : (splitAnd (mkKey s1 s2) []).length = 2) :
    s1 = t1 ∧ s2 = t2 := by
  have e1 := splitAnd_key_two h
  have h' : (splitAnd (mkKey t1 t2) []).length = 2 := by rw [← he]; exact h
  have e2 := splitAnd_key_two h'
  rw [he, e2] at e1
  injection e1 with h1 hrest
  injection hrest with h2 _
  constructor
  · exact (List.append_inj_left' h1 rfl).symm
  · injection h2 with _ h3
    exact h3.symm

/-! ## `strip` and the separator's surrounding spaces -/

lemma rstrip_append_space (x : Str) : rstrip (x ++ [' ']) = rstrip x := by
  simp [rstrip, List.reverse_append, List.dropWhile_cons]

lemma strip_append_space (x : Str) : strip (x ++ [' ']) = strip x := by
  simp [strip, rstrip_append_space]

lemma strip_cons_space (x : Str) : strip (' ' :: x) = strip x := by
  by_cases h : (x.reverse.dropWhile (·.isWhitespace)).isEmpty
  · have hx : rstrip x = [] := by
      simp only [rstrip]
      simp only [List.isEmpty_iff] at h
      simp [h]
    have hx' : rstrip (' ' :: x) = [] := by
      have : (' ' :: x).reverse = x.reverse ++ [' '] := by simp
      simp only [rstrip, this, List.dropWhile_append]
      simp only [List.isEmpty_iff] at h
      simp [h, List.dropWhile_cons]
    simp [strip, hx, hx']
  · have hx' : rstrip (' ' :: x) = ' ' :: rstrip x := by
      have hrev : (' ' :: x).reverse = x.reverse ++ [' '] := by simp
      simp only [rstrip, hrev, List.dropWhile_append, h]
      simp
    simp [strip, hx', lstrip, List.dropWhile_cons]

/-! ## The dict built by the scoring loop -/

/-- The keys of the dict, in insertion order. -/
def dkeys (dl : List (Str × Nat)) : List Str := dl.map Prod.fst

/-- Folding the insertion stream into the dict. -/
def dictFold (d : List (Str × Nat)) (ps : List (Str × Nat)) : List (Str × Nat) :=
  ps.foldl (fun acc e => dictInsert acc e.1 e.2) d

lemma dl_dist_func_eq_dictFold (dist : Str → Str → Nat) (L R : List Str) :
    dl_dist_func dist L R = dictFold [] (pairsList dist L R) := by
  unfold dl_dist_func dictFold pairsList
  rw [List.foldl_flatten, List.foldl_map]
  congr 1
  funext d s1
  rw [List.foldl_map]

lemma dkeys_replace (d : List (Str × Nat)) (k : Str) (v : Nat) :
    dkeys (d.map fun p => if p.1 = k then (p.1, v) else p) = dkeys d := by
  unfold dkeys
  rw [List.map_map]
  apply List.map_congr_left
  intro p _
  by_cases hp : p.1 = k <;> simp [hp]

lemma dkeys_dictInsert (d : List (Str × Nat)) (k : Str) (v : Nat) (k' : Str) :
    k' ∈ dkeys (dictInsert d k v) ↔ k' ∈ dkeys d ∨ k' = k := by
  unfold dictInsert
  split
  · rename_i hany
    have hk : k ∈ dkeys d := by
      simp only [List.any_eq_true, decide_eq_true_eq] at hany
      obtain ⟨p, hp, hpk⟩ := hany
      exact List.mem_map.mpr ⟨p, hp, hpk⟩
    rw [dkeys_replace]
    constructor
    · exact Or.inl
    · rintro (h | rfl)
      · exact h
      · exact hk
  · simp [dkeys]

lemma mem_dictInsert {d : List (Str × Nat)} {k : Str} {v : Nat} {e : Str × Nat}
    (h : e ∈ dictInsert d k v) : e ∈ d ∨ e = (k, v) := by
  unfold dictInsert at h
  split at h
  · obtain ⟨p, hp, hpe⟩ := List.mem_map.mp h
    by_cases hpk : p.1 = k
    · right
      rw [if_pos hpk] at hpe
      rw [← hpe, hpk]
    · left
      rw [if_neg hpk] at hpe
      exact hpe ▸ hp
  · rcases List.mem_append.mp h with h | h
    · exact Or.inl h
    · right
      simpa using h

lemma mem_dkeys_dictFold (ps : List (Str × Nat)) :
    ∀ (d : List (Str × Nat)) (k : Str),
      k ∈ dkeys (dictFold d ps) ↔ k ∈ dkeys d ∨ ∃ e ∈ ps, e.1 = k := by
  induction ps with
  | nil => intro d k; simp [dictFold]
  | cons e es ih =>
    intro d k
    unfold dictFold
    simp only [List.foldl_cons]
    have step := ih (dictInsert d e.1 e.2) k
    unfold dictFold at step
    rw [step, dkeys_dictInsert]
    simp only [List.mem_cons]
    constructor
    · rintro ((h | rfl) | ⟨e', he', rfl⟩)
      · exact Or.inl h
      · exact Or.inr ⟨e, Or.inl rfl, rfl⟩
      · exact Or.inr ⟨e', Or.inr he', rfl⟩
    · rintro (h | ⟨e', (rfl | he'), rfl⟩)
      · exact Or.inl (Or.inl h)
      · exact Or.inl (Or.inr rfl)
      · exact Or.inr ⟨e', he', rfl⟩

lemma mem_dictFold : ∀ {ps d : List (Str × Nat)} {e : Str × Nat},
    e ∈ dictFold d ps → e ∈ d ∨ e ∈ ps := by
  intro ps
  induction ps with
  | nil => intro d e h; exact Or.inl (by simpa [dictFold] using h)
  | cons p ps' ih =>
    intro d e h
    unfold dictFold at h
    simp only [List.foldl_cons] at h
    rcases ih h with h' | h'
    · rcases mem_dictInsert h' with h'' | h''
      · exact Or.inl h''
      · right
        rw [h'']
        exact List.mem_cons_self _ _
    · exact Or.inr (List.mem_cons_of_mem _ h')

lemma mem_pairsList {dist : Str → Str → Nat} {L R : List Str} {e : Str × Nat} :
    e ∈ pairsList dist L R ↔ ∃ s1 ∈ L, ∃ s2 ∈ R, e = (mkKey s1 s2, dist s1 s2) := by
  simp only [pairsList, List.mem_flatten, List.mem_map]
  constructor
  · rintro ⟨l, ⟨s1, hs1, rfl⟩, hl⟩
    obtain ⟨s2, hs2, rfl⟩ := List.mem_map.mp hl
    exact ⟨s1, hs1, s2, hs2, rfl⟩
  · rintro ⟨s1, hs1, s2, hs2, rfl⟩
    exact ⟨_, ⟨s1, hs1, rfl⟩, List.mem_map.mpr ⟨s2, hs2, rfl⟩⟩

lemma counts_ge_two {dist : Str → Str → Nat} {L R : List Str} :
    ∀ e ∈ dl_dist_func dist L R, 2 ≤ (splitAnd e.1 []).length := by
  intro e he
  rw [dl_dist_func_eq_dictFold] at he
  rcases mem_dictFold he with h | h
  · simp at h
  · obtain ⟨s1, _, s2, _, rfl⟩ := mem_pairsList.mp h
    exact two_le_key_splits s1 s2

/-! ## The reshape step -/

lemma nat_max?_eq_some_iff {a : Nat} {l : List Nat} :
    l.max? = some a ↔ a ∈ l ∧ ∀ b ∈ l, b ≤ a := by
  apply List.max?_eq_some_iff
  · exact Nat.le_refl
  · exact fun a b => max_choice a b
  · exact fun a b c => Nat.max_le

lemma parseRows_ok_of {dl : List (Str × Nat)} (hne : dl ≠ [])
    (h2 : ∀ e ∈ dl, (splitAnd e.1 []).length = 2) :
    parseRows dl = .ok (dl.map parseEntry) := by
  unfold parseRows
  rw [if_pos]
  apply nat_max?_eq_some_iff.mpr
  constructor
  · cases dl with
    | nil => exact absurd rfl hne
    | cons e es =>
      have : (splitAnd e.1 []).length = 2 := h2 e (List.mem_cons_self _ _)
      exact this ▸ List.mem_map.mpr ⟨e, List.mem_cons_self _ _, rfl⟩
  · intro b hb
    obtain ⟨e, he, rfl⟩ := List.mem_map.mp hb
    exact Nat.le_of_eq (h2 e he)

lemma parseRows_ok_inv {dl : List (Str × Nat)} {rows : List SRow}
    (hge : ∀ e ∈ dl, 2 ≤ (splitAnd e.1 []).length)
    (h : parseRows dl = .ok rows) :
    rows = dl.map parseEntry ∧ dl ≠ [] ∧
      ∀ e ∈ dl, (splitAnd e.1 []).length = 2 := by
  unfold parseRows at h
  split at h
  · rename_i hmax
    obtain ⟨hmem, hle⟩ := nat_max?_eq_some_iff.mp hmax
    refine ⟨by injection h with h'; exact h'.symm, ?_, ?_⟩
    · intro hnil
      rw [hnil] at hmem
      simp [partCounts] at hmem
    · intro e he
      have hb : (splitAnd e.1 []).length ∈ partCounts dl :=
        List.mem_map.mpr ⟨e, he, rfl⟩
      exact Nat.le_antisymm (hle _ hb) (hge e he)
  · cases h

lemma partCounts_eq_dkeys (dl : List (Str × Nat)) :
    partCounts dl = (dkeys dl).map (fun k => (splitAnd k []).length) := by
  simp [partCounts, dkeys, List.map_map]

lemma max?_congr_mem {l1 l2 : List Nat} (h : ∀ x, x ∈ l1 ↔ x ∈ l2) :
    l1.max? = l2.max? := by
  cases hm : l1.max? with
  | none =>
    rw [List.max?_eq_none_iff] at hm
    symm
    rw [List.max?_eq_none_iff]
    cases l2 with
    | nil => rfl
    | cons b bs =>
      have := (h b).mpr (List.mem_cons_self b bs)
      rw [hm] at this
      simp at this
  | some a =>
    obtain ⟨hmem, hle⟩ := nat_max?_eq_some_iff.mp hm
    symm
    exact nat_max?_eq_some_iff.mpr ⟨(h a).mp hmem, fun b hb => hle b ((h b).mpr hb)⟩

lemma parseRows_cond_congr {d1 d2 : List (Str × Nat)}
    (h : ∀ k, k ∈ dkeys d1 ↔ k ∈ dkeys d2) :
    (partCounts d1).max? = (partCounts d2).max? := by
  rw [partCounts_eq_dkeys, partCounts_eq_dkeys]
  apply max?_congr_mem
  intro x
  simp only [List.mem_map]
  constructor
  · rintro ⟨k, hk, rfl⟩
    exact ⟨k, (h k).mp hk, rfl⟩
  · rintro ⟨k, hk, rfl⟩
    exact ⟨k, (h k).mpr hk, rfl⟩

/-! ## The selection step -/

lemma bestRow_cons (x y : SRow) (ys : List SRow) :
    bestRow x (y :: ys) = bestRow (if y.d < x.d then y else x) ys := rfl

lemma bestRow_mem : ∀ (xs : List SRow) (x : SRow), bestRow x xs ∈ x :: xs := by
  intro xs
  induction xs with
  | nil => intro x; simp [bestRow]
  | cons y ys ih =>
    intro x
    rw [bestRow_cons]
    rcases List.mem_cons.mp (ih (if y.d < x.d then y else x)) with h | h
    · rw [h]
      by_cases hc : y.d < x.d <;> simp [hc]
    · exact List.mem_cons_of_mem _ (List.mem_cons_of_mem _ h)

lemma bestRow_le : ∀ (xs : List SRow) (x : SRow),
    (bestRow x xs).d ≤ x.d ∧ ∀ y ∈ xs, (bestRow x xs).d ≤ y.d := by
  intro xs
  induction xs with
  | nil => intro x; exact ⟨Nat.le_refl _, by simp⟩
  | cons y ys ih =>
    intro x
    rw [bestRow_cons]
    obtain ⟨h1, h2⟩ := ih (if y.d < x.d then y else x)
    by_cases hc : y.d < x.d
    · rw [if_pos hc] at h1 h2 ⊢
      refine ⟨Nat.le_trans h1 (Nat.le_of_lt hc), ?_⟩
      intro z hz
      rcases List.mem_cons.mp hz with rfl | hz
      · exact h1
      · exact h2 z hz
    · rw [if_neg hc] at h1 h2 ⊢
      refine ⟨h1, ?_⟩
      intro z hz
      rcases List.mem_cons.mp hz with rfl | hz
      · exact Nat.le_trans h1 (Nat.le_of_not_lt hc)
      · exact h2 z hz

lemma selGroup_eq_some {rows : List SRow} {k : Str} {rec : SRow}
    (h : selGroup rows k = some rec) :
    rec ∈ rows ∧ rec.a1 = k ∧ ∀ y ∈ rows, y.a1 = k → rec.d ≤ y.d := by
  unfold selGroup selList at h
  split at h
  · cases h
  · rename_i x xs hxs
    injection h with h
    subst h
    have hmem : bestRow x xs ∈ rows.filter (fun r => r.a1 = k) :=
      hxs ▸ bestRow_mem xs x
    have hfil := List.mem_filter.mp hmem
    refine ⟨hfil.1, by simpa using hfil.2, ?_⟩
    intro y hy hyk
    have hyfil : y ∈ x :: xs :=
      hxs ▸ List.mem_filter.mpr ⟨hy, by simpa using hyk⟩
    rcases List.mem_cons.mp hyfil with rfl | h'
    · exact (bestRow_le xs y).1
    · exact (bestRow_le xs x).2 y h'

lemma selGroup_isSome {rows : List SRow} {k : Str} (h : ∃ r ∈ rows, r.a1 = k) :
    ∃ rec, selGroup rows k = some rec := by
  obtain ⟨r, hr, hk⟩ := h
  have hmem : r ∈ rows.filter (fun r => r.a1 = k) :=
    List.mem_filter.mpr ⟨hr, by simpa using hk⟩
  unfold selGroup selList
  split
  · rename_i hfil
    rw [hfil] at hmem
    simp at hmem
  · exact ⟨_, rfl⟩

/-! ## The lexicographic key order -/

lemma lexLe_total : ∀ a b : Str, lexLe a b = true ∨ lexLe b a = true := by
  intro a
  induction a with
  | nil => intro b; left; rfl
  | cons x xs ih =>
    intro b
    cases b with
    | nil => right; rfl
    | cons y ys =>
      by_cases hxy : x = y
      · subst hxy
        simp only [lexLe, if_pos rfl]
        exact ih ys
      · rcases lt_trichotomy x y with h | h | h
        · left
          simp [lexLe, hxy, h]
        · exact absurd h hxy
        · right
          have hyx : ¬ (y = x) := fun he => hxy he.symm
          simp [lexLe, hyx, h]

lemma lexLe_trans : ∀ a b c : Str,
    lexLe a b = true → lexLe b c = true → lexLe a c = true := by
  intro a
  induction a with
  | nil => intro b c _ _; rfl
  | cons x xs ih =>
    intro b c hab hbc
    cases b with
    | nil => simp [lexLe] at hab
    | cons y ys =>
      cases c with
      | nil => simp [lexLe] at hbc
      | cons z zs =>
        simp only [lexLe] at hab hbc ⊢
        by_cases hxy : x = y
        · subst hxy
          rw [if_pos rfl] at hab
          by_cases hyz : x = z
          · subst hyz
            rw [if_pos rfl] at hbc ⊢
            exact ih ys zs hab hbc
          · rw [if_neg hyz] at hbc ⊢
            exact hbc
        · rw [if_neg hxy] at hab
          have hlt : x < y := of_decide_eq_true hab
          by_cases hyz : y = z
          · subst hyz
            rw [if_neg hxy]
            exact hab
          · rw [if_neg hyz] at hbc
            have hlt2 : y < z := of_decide_eq_true hbc
            have hxz : x < z := lt_trans hlt hlt2
            rw [if_neg (ne_of_lt hxz)]
            exact decide_eq_true hxz

lemma lexLe_antisymm : ∀ a b : Str,
    lexLe a b = true → lexLe b a = true → a = b := by
  intro a
  induction a with
  | nil =>
    intro b _ hba
    cases b with
    | nil => rfl
    | cons y ys => simp [lexLe] at hba
  | cons x xs ih =>
    intro b hab hba
    cases b with
    | nil => simp [lexLe] at hab
    | cons y ys =>
      simp only [lexLe] at hab hba
      by_cases hxy : x = y
      · subst hxy
        rw [if_pos rfl] at hab hba
        rw [ih ys hab hba]
      · rw [if_neg hxy] at hab
        rw [if_neg (fun he => hxy he.symm)] at hba
        have h1 : x < y := of_decide_eq_true hab
        have h2 : y < x := of_decide_eq_true hba
        exact absurd h2 (lt_asymm h1)

instance : IsTrans Str keyLe := ⟨fun a b c => lexLe_trans a b c⟩

instance : IsTotal Str keyLe := ⟨fun a b => lexLe_total a b⟩

instance : IsAntisymm Str keyLe := ⟨fun a b => lexLe_antisymm a b⟩

/-! ## Pipeline-level lemmas -/

lemma pipeline_ok_iff {dist : Str → Str → Nat} {L R : List Str} {out : List SRow} :
    fuzzy_pipeline dist L R = .ok out ↔
      ∃ rows, parseRows (dl_dist_func dist L R) = .ok rows ∧
        out = dl_dist_fin rows := by
  unfold fuzzy_pipeline
  cases h : parseRows (dl_dist_func dist L R) with
  | error e => simp [Except.map, h]
  | ok rows =>
    simp only [Except.map, h, Except.ok.injEq]
    constructor
    · intro he
      exact ⟨rows, rfl, he.symm⟩
    · rintro ⟨rows', h', he⟩
      rw [he, h']

lemma exists_entry_of_mem_dkeys {dl : List (Str × Nat)} {k : Str}
    (h : k ∈ dkeys dl) : ∃ v, (k, v) ∈ dl := by
  obtain ⟨p, hp, hk⟩ := List.mem_map.mp h
  exact ⟨p.2, by rw [← hk]; exact hp⟩

lemma key_mem_dkeys_func {dist : Str → Str → Nat} {L R : List Str} {s1 s2 : Str}
    (h1 : s1 ∈ L) (h2 : s2 ∈ R) :
    mkKey s1 s2 ∈ dkeys (dl_dist_func dist L R) := by
  rw [dl_dist_func_eq_dictFold, mem_dkeys_dictFold]
  right
  exact ⟨(mkKey s1 s2, dist s1 s2), mem_pairsList.mpr ⟨s1, h1, s2, h2, rfl⟩, rfl⟩

lemma dkeys_func_subset {dist : Str → Str → Nat} {L R : List Str} {k : Str}
    (h : k ∈ dkeys (dl_dist_func dist L R)) :
    ∃ s1 ∈ L, ∃ s2 ∈ R, k = mkKey s1 s2 := by
  rw [dl_dist_func_eq_dictFold, mem_dkeys_dictFold] at h
  rcases h with h | ⟨e, he, rfl⟩
  · simp [dkeys] at h
  · obtain ⟨s1, hs1, s2, hs2, rfl⟩ := mem_pairsList.mp he
    exact ⟨s1, hs1, s2, hs2, rfl⟩

lemma succ_key_two {dist : Str → Str → Nat} {L R : List Str} {rows : List SRow}
    (hok : parseRows (dl_dist_func dist L R) = .ok rows) :
    ∀ s1 ∈ L, ∀ s2 ∈ R, (splitAnd (mkKey s1 s2) []).length = 2 := by
  obtain ⟨-, -, hcnt⟩ := parseRows_ok_inv counts_ge_two hok
  intro s1 h1 s2 h2
  obtain ⟨v, hv⟩ := exists_entry_of_mem_dkeys (key_mem_dkeys_func h1 h2)
  exact hcnt (mkKey s1 s2, v) hv

lemma entry_value_of_succ {dist : Str → Str → Nat} {L R : List Str} {rows : List SRow}
    {v : Nat} {s1 s2 : Str}
    (hok : parseRows (dl_dist_func dist L R) = .ok rows)
    (hv : (mkKey s1 s2, v) ∈ dl_dist_func dist L R)
    (hs1 : s1 ∈ L) (hs2 : s2 ∈ R) : v = dist s1 s2 := by
  rw [dl_dist_func_eq_dictFold] at hv
  rcases mem_dictFold hv with h | h
  · simp at h
  · obtain ⟨t1, ht1, t2, ht2, he⟩ := mem_pairsList.mp h
    have hk : mkKey s1 s2 = mkKey t1 t2 := congrArg Prod.fst he
    have hv2 : v = dist t1 t2 := congrArg Prod.snd he
    have h2 := succ_key_two hok s1 hs1 s2 hs2
    obtain ⟨e1, e2⟩ := mkKey_inj_two hk h2
    rw [hv2, ← e1, ← e2]

lemma parseEntry_key_two {k : Str} {v : Nat} {s1 s2 : Str} (hk : k = mkKey s1 s2)
    (h2 : (splitAnd k []).length = 2) :
    parseEntry (k, v) = ⟨s1 ++ [' '], ' ' :: s2, v⟩ := by
  subst hk
  simp only [parseEntry, splitAnd_key_two h2]

lemma rows_char {dist : Str → Str → Nat} {L R : List Str} {rows : List SRow}
    {r : SRow}
    (hok : parseRows (dl_dist_func dist L R) = .ok rows) (hr : r ∈ rows) :
    ∃ s1 ∈ L, ∃ s2 ∈ R, r = ⟨s1 ++ [' '], ' ' :: s2, dist s1 s2⟩ := by
  obtain ⟨hrows, hne, hcnt⟩ := parseRows_ok_inv counts_ge_two hok
  subst hrows
  obtain ⟨e, he, rfl⟩ := List.mem_map.mp hr
  have hkmem : e.1 ∈ dkeys (dl_dist_func dist L R) := List.mem_map.mpr ⟨e, he, rfl⟩
  obtain ⟨s1, hs1, s2, hs2, hk⟩ := dkeys_func_subset hkmem
  have h2 : (splitAnd e.1 []).length = 2 := hcnt e he
  have hv : e.2 = dist s1 s2 := by
    apply entry_value_of_succ hok _ hs1 hs2
    rw [← hk]
    exact he
  refine ⟨s1, hs1, s2, hs2, ?_⟩
  have : parseEntry (e.1, e.2) = ⟨s1 ++ [' '], ' ' :: s2, e.2⟩ := parseEntry_key_two hk h2
  rw [← hv]
  exact this

lemma row_exists {dist : Str → Str → Nat} {L R : List Str} {rows : List SRow}
    {s1 s2 : Str}
    (hok : parseRows (dl_dist_func dist L R) = .ok rows)
    (hs1 : s1 ∈ L) (hs2 : s2 ∈ R) :
    (⟨s1 ++ [' '], ' ' :: s2, dist s1 s2⟩ : SRow) ∈ rows := by
  obtain ⟨hrows, hne, hcnt⟩ := parseRows_ok_inv counts_ge_two hok
  subst hrows
  obtain ⟨v, hv⟩ := exists_entry_of_mem_dkeys (key_mem_dkeys_func hs1 hs2)
  have hveq : v = dist s1 s2 := entry_value_of_succ hok hv hs1 hs2
  have h2 := succ_key_two hok s1 hs1 s2 hs2
  have hpe : parseEntry (mkKey s1 s2, v) = ⟨s1 ++ [' '], ' ' :: s2, v⟩ :=
    parseEntry_key_two rfl h2
  rw [← hveq]
  exact List.mem_map.mpr ⟨(mkKey s1 s2, v), hv, hpe⟩

/-! ## Structure of `dl_dist_fin` -/

lemma mem_sortedKeys {rows : List SRow} {k : Str} :
    k ∈ sortedKeys rows ↔ ∃ r ∈ rows, r.a1 = k := by
  unfold sortedKeys
  rw [(List.perm_insertionSort keyLe _).mem_iff, List.mem_dedup]
  simp [List.mem_map]

lemma sortedKeys_nodup (rows : List SRow) : (sortedKeys rows).Nodup :=
  ((List.perm_insertionSort keyLe _).nodup_iff).mpr (List.nodup_dedup _)

lemma sortedKeys_sorted (rows : List SRow) : (sortedKeys rows).Pairwise keyLe :=
  List.sorted_insertionSort keyLe _

lemma sortedKeys_congr {rows1 rows2 : List SRow}
    (h : ∀ k, (∃ r ∈ rows1, r.a1 = k) ↔ ∃ r ∈ rows2, r.a1 = k) :
    sortedKeys rows1 = sortedKeys rows2 := by
  refine @List.eq_of_perm_of_sorted Str keyLe _ _ _ ?_ ?_ ?_
  · rw [List.perm_ext_iff_of_nodup (sortedKeys_nodup _) (sortedKeys_nodup _)]
    intro k
    rw [mem_sortedKeys, mem_sortedKeys]
    exact h k
  · exact sortedKeys_sorted _
  · exact sortedKeys_sorted _

lemma filterMap_selGroup_map_a1 (rows : List SRow) :
    ∀ ks : List Str, (∀ k ∈ ks, ∃ r ∈ rows, r.a1 = k) →
      (ks.filterMap (selGroup rows)).map SRow.a1 = ks := by
  intro ks
  induction ks with
  | nil => intro _; rfl
  | cons k ks' ih =>
    intro h
    obtain ⟨rec, hrec⟩ := selGroup_isSome (h k (List.mem_cons_self _ _))
    simp only [List.filterMap_cons, hrec, List.map_cons]
    rw [ih (fun k' hk' => h k' (List.mem_cons_of_mem _ hk'))]
    congr 1
    exact (selGroup_eq_some hrec).2.1

lemma dl_dist_fin_map_a1 (rows : List SRow) :
    (dl_dist_fin rows).map SRow.a1 = sortedKeys rows := by
  unfold dl_dist_fin
  exact filterMap_selGroup_map_a1 rows (sortedKeys rows)
    (fun k hk => mem_sortedKeys.mp hk)

lemma dl_dist_fin_length (rows : List SRow) :
    (dl_dist_fin rows).length = (sortedKeys rows).length := by
  rw [← dl_dist_fin_map_a1 rows, List.length_map]

lemma mem_dl_dist_fin {rows : List SRow} {rec : SRow} (h : rec ∈ dl_dist_fin rows) :
    ∃ k ∈ sortedKeys rows, selGroup rows k = some rec := by
  unfold dl_dist_fin at h
  obtain ⟨k, hk, hsel⟩ := List.mem_filterMap.mp h
  exact ⟨k, hk, hsel⟩

lemma dedup_length_congr {l1 l2 : List Str} (h : ∀ x, x ∈ l1 ↔ x ∈ l2) :
    l1.dedup.length = l2.dedup.length := by
  rw [← List.card_toFinset, ← List.card_toFinset]
  congr 1
  ext x
  simp only [List.mem_toFinset]
  exact h x

/-! ## Distinct keys of the dict -/

lemma dkeys_dictInsert_nodup {d : List (Str × Nat)} {k : Str} {v : Nat}
    (h : (dkeys d).Nodup) : (dkeys (dictInsert d k v)).Nodup := by
  unfold dictInsert
  split
  · rw [dkeys_replace]
    exact h
  · rename_i hany
    have hk : k ∉ dkeys d := by
      intro hmem
      obtain ⟨p, hp, hpk⟩ := List.mem_map.mp hmem
      apply hany
      exact List.any_eq_true.mpr ⟨p, hp, by simpa using hpk⟩
    unfold dkeys
    rw [List.map_append]
    refine List.Nodup.append h (by simp) ?_
    intro x hx hx'
    simp only [List.map_cons, List.map_nil, List.mem_singleton] at hx'
    exact hk (hx' ▸ hx)

lemma dkeys_dictFold_nodup (ps : List (Str × Nat)) :
    ∀ d, (dkeys d).Nodup → (dkeys (dictFold d ps)).Nodup := by
  induction ps with
  | nil => intro d h; exact h
  | cons e es ih =>
    intro d h
    unfold dictFold
    simp only [List.foldl_cons]
    exact ih _ (dkeys_dictInsert_nodup h)

lemma mem_crossKeys {L R : List Str} {k : Str} :
    k ∈ crossKeys L R ↔ ∃ s1 ∈ L, ∃ s2 ∈ R, k = mkKey s1 s2 := by
  simp only [crossKeys, List.mem_flatten, List.mem_map]
  constructor
  · rintro ⟨l, ⟨s1, hs1, rfl⟩, hl⟩
    obtain ⟨s2, hs2, rfl⟩ := List.mem_map.mp hl
    exact ⟨s1, hs1, s2, hs2, rfl⟩
  · rintro ⟨s1, hs1, s2, hs2, rfl⟩
    exact ⟨_, ⟨s1, hs1, rfl⟩, List.mem_map.mpr ⟨s2, hs2, rfl⟩⟩

/-! ## The left join -/

lemma mem_joinOne {rs : List (Str × β)} {a : Str × α}
    {p : (Str × α) × Option (Str × β)} (h : p ∈ joinOne rs a) :
    p.1 = a ∧ (p.2 = none ∨ ∃ b ∈ rs, b.1 = a.1 ∧ p.2 = some b) := by
  unfold joinOne at h
  split at h
  · simp only [List.mem_singleton] at h
    rw [h]
    exact ⟨rfl, Or.inl rfl⟩
  · rename_i m ms hfil
    obtain ⟨b, hb, rfl⟩ := List.mem_map.mp h
    have hbmem : b ∈ rs.filter (fun b => b.1 = a.1) := hfil ▸ hb
    have hf := List.mem_filter.mp hbmem
    exact ⟨rfl, Or.inr ⟨b, hf.1, by simpa using hf.2, rfl⟩⟩

lemma joinOne_of_no_match {rs : List (Str × β)} {a : Str × α}
    (h : rs.filter (fun b => b.1 = a.1) = []) : joinOne rs a = [(a, none)] := by
  unfold joinOne
  rw [h]

/-! ## Dict building as a first-occurrence filter -/

lemma ddfAux_cons (seen : List Str) (e : Str × Nat) (es : List (Str × Nat)) :
    ddfAux seen (e :: es)
      = if e.1 ∈ seen then ddfAux seen es else e :: ddfAux (e.1 :: seen) es := by
  simp only [ddfAux]

lemma ddfAux_congr : ∀ (l : List (Str × Nat)) (s1 s2 : List Str),
    (∀ k, k ∈ s1 ↔ k ∈ s2) → ddfAux s1 l = ddfAux s2 l := by
  intro l
  induction l with
  | nil => intro s1 s2 _; rfl
  | cons e es ih =>
    intro s1 s2 h
    rw [ddfAux_cons, ddfAux_cons]
    by_cases he : e.1 ∈ s1
    · rw [if_pos he, if_pos ((h e.1).mp he)]
      exact ih s1 s2 h
    · rw [if_neg he, if_neg (fun hh => he ((h e.1).mpr hh))]
      congr 1
      apply ih
      intro k
      simp only [List.mem_cons]
      exact or_congr Iff.rfl (h k)

lemma ddfAux_skip : ∀ (l : List (Str × Nat)) (seen : List Str) (k : Str),
    (∀ e ∈ l, e.1 ≠ k) → ddfAux (k :: seen) l = ddfAux seen l := by
  intro l
  induction l with
  | nil => intro _ _ _; rfl
  | cons e es ih =>
    intro seen k h
    rw [ddfAux_cons, ddfAux_cons]
    have hek : e.1 ≠ k := h e (List.mem_cons_self _ _)
    have hmem : (e.1 ∈ k :: seen) ↔ (e.1 ∈ seen) := by simp [List.mem_cons, hek]
    by_cases he : e.1 ∈ seen
    · rw [if_pos (hmem.mpr he), if_pos he]
      exact ih seen k (fun e' he' => h e' (List.mem_cons_of_mem _ he'))
    · rw [if_neg (fun hh => he (hmem.mp hh)), if_neg he]
      congr 1
      rw [ddfAux_congr es (e.1 :: k :: seen) (k :: e.1 :: seen)
        (by intro x; simp only [List.mem_cons]; tauto)]
      exact ih (e.1 :: seen) k (fun e' he' => h e' (List.mem_cons_of_mem _ he'))

lemma ddfAux_filter (P : Str → Bool) :
    ∀ (l : List (Str × Nat)) (seen : List Str),
      (ddfAux seen l).filter (keyPred P) = ddfAux seen (l.filter (keyPred P)) := by
  intro l
  induction l with
  | nil => intro seen; rfl
  | cons e es ih =>
    intro seen
    by_cases hP : P e.1 = true
    · by_cases he : e.1 ∈ seen
      · rw [ddfAux_cons, if_pos he,
          List.filter_cons_of_pos (show keyPred P e = true from hP),
          ddfAux_cons, if_pos he]
        exact ih seen
      · rw [ddfAux_cons, if_neg he,
          List.filter_cons_of_pos (show keyPred P e = true from hP),
          List.filter_cons_of_pos (show keyPred P e = true from hP),
          ddfAux_cons, if_neg he]
        rw [ih (e.1 :: seen)]
    · have hP' : ¬ keyPred P e = true := hP
      by_cases he : e.1 ∈ seen
      · rw [ddfAux_cons, if_pos he, List.filter_cons_of_neg hP']
        exact ih seen
      · rw [ddfAux_cons, if_neg he, List.filter_cons_of_neg hP',
          List.filter_cons_of_neg hP']
        rw [ih (e.1 :: seen)]
        apply ddfAux_skip
        intro e' he' hke
        have h2 : P e'.1 = true := (List.mem_filter.mp he').2
        rw [hke] at h2
        exact hP h2

lemma ddfAux_append : ∀ (l1 l2 : List (Str × Nat)) (seen : List Str),
    ddfAux seen (l1 ++ l2) = ddfAux seen l1 ++ ddfAux (dkeys l1 ++ seen) l2 := by
  intro l1
  induction l1 with
  | nil => intro l2 seen; simp [ddfAux, dkeys]
  | cons e l1' ih =>
    intro l2 seen
    simp only [List.cons_append]
    rw [ddfAux_cons, ddfAux_cons]
    by_cases he : e.1 ∈ seen
    · rw [if_pos he, if_pos he, ih l2 seen]
      congr 1
      apply ddfAux_congr
      intro x
      unfold dkeys
      simp only [List.map_cons, List.mem_append, List.mem_cons]
      constructor
      · tauto
      · rintro ((rfl | h) | h)
        · exact Or.inr he
        · exact Or.inl h
        · exact Or.inr h
    · rw [if_neg he, if_neg he, ih l2 (e.1 :: seen)]
      simp only [List.cons_append, List.cons.injEq, true_and]
      congr 1
      apply ddfAux_congr
      intro x
      unfold dkeys
      simp only [List.map_cons, List.mem_append, List.mem_cons]
      tauto

lemma ddfAux_all_seen : ∀ (l : List (Str × Nat)) (seen : List Str),
    (∀ e ∈ l, e.1 ∈ seen) → ddfAux seen l = [] := by
  intro l
  induction l with
  | nil => intro _ _; rfl
  | cons e es ih =>
    intro seen h
    rw [ddfAux_cons, if_pos (h e (List.mem_cons_self _ _))]
    exact ih seen (fun e' he' => h e' (List.mem_cons_of_mem _ he'))

lemma consistent_mono {l1 l2 : List (Str × Nat)} (hsub : ∀ e ∈ l1, e ∈ l2)
    (h : Consistent l2) : Consistent l1 :=
  fun e he e' he' hk => h e (hsub e he) e' (hsub e' he') hk

lemma dictFold_eq_ddfAux : ∀ (ps d : List (Str × Nat)), Consistent (d ++ ps) →
    dictFold d ps = d ++ ddfAux (dkeys d) ps := by
  intro ps
  induction ps with
  | nil => intro d _; simp [dictFold, ddfAux]
  | cons e es ih =>
    intro d hcons
    unfold dictFold
    simp only [List.foldl_cons]
    rw [ddfAux_cons]
    by_cases he : e.1 ∈ dkeys d
    · have hany : (d.any (fun p => p.1 = e.1)) = true := by
        obtain ⟨p, hp, hpk⟩ := List.mem_map.mp he
        exact List.any_eq_true.mpr ⟨p, hp, by simpa using hpk⟩
      have hins : dictInsert d e.1 e.2 = d := by
        unfold dictInsert
        rw [if_pos hany]
        conv_rhs => rw [← List.map_id d]
        apply List.map_congr_left
        intro p hp
        by_cases hpk : p.1 = e.1
        · rw [if_pos hpk]
          have hv : e.2 = p.2 :=
            hcons e (List.mem_append.mpr (Or.inr (List.mem_cons_self _ _)))
              p (List.mem_append.mpr (Or.inl hp)) hpk.symm
          have hpe : (p.1, e.2) = (p.1, p.2) := by rw [hv]
          simpa using hpe
        · rw [if_neg hpk]
          rfl
      rw [hins, if_pos he]
      have hsub : ∀ x ∈ d ++ es, x ∈ d ++ e :: es := by
        intro x hx
        simp only [List.mem_append, List.mem_cons] at hx ⊢
        tauto
      have hrec := ih d (consistent_mono hsub hcons)
      unfold dictFold at hrec
      exact hrec
    · have hnot : ¬ (d.any (fun p => p.1 = e.1) = true) := by
        intro hany
        obtain ⟨p, hp, hpk⟩ := List.any_eq_true.mp hany
        exact he (List.mem_map.mpr ⟨p, hp, by simpa using hpk⟩)
      have hins : dictInsert d e.1 e.2 = d ++ [e] := by
        unfold dictInsert
        rw [if_neg hnot]
      rw [hins, if_neg he]
      have hsub : ∀ x ∈ (d ++ [e]) ++ es, x ∈ d ++ e :: es := by
        intro x hx
        simp only [List.mem_append, List.mem_cons, List.mem_singleton] at hx ⊢
        tauto
      have hrec := ih (d ++ [e]) (consistent_mono hsub hcons)
      unfold dictFold at hrec
      rw [hrec, List.append_assoc]
      congr 1
      simp only [List.singleton_append, List.cons.injEq, true_and]
      apply ddfAux_congr
      intro k
      unfold dkeys
      simp only [List.map_append, List.map_cons, List.map_nil, List.mem_append,
        List.mem_cons, List.mem_singleton, List.not_mem_nil, or_false]
      tauto

/-! ## The chunked scoring pass -/

lemma pairsList_eq_blocks (dist : Str → Str → Nat) (M R : List Str) :
    pairsList dist M R = (M.map (block dist R)).flatten := rfl

lemma pairsList_consistent {dist : Str → Str → Nat} {L R : List Str}
    {rows : List SRow}
    (hok : parseRows (dl_dist_func dist L R) = .ok rows) :
    Consistent (pairsList dist L R) := by
  intro e he e' he' hk
  obtain ⟨s1, hs1, s2, hs2, rfl⟩ := mem_pairsList.mp he
  obtain ⟨t1, ht1, t2, ht2, rfl⟩ := mem_pairsList.mp he'
  obtain ⟨h1, h2⟩ := mkKey_inj_two hk (succ_key_two hok s1 hs1 s2 hs2)
  subst h1
  subst h2
  rfl

lemma dl_dist_func_eq_ddf {dist : Str → Str → Nat} {M R : List Str}
    (hcons : Consistent (pairsList dist M R)) :
    dl_dist_func dist M R = ddfAux [] (pairsList dist M R) := by
  rw [dl_dist_func_eq_dictFold]
  have h := dictFold_eq_ddfAux (pairsList dist M R) [] (by simpa using hcons)
  simpa [dkeys] using h

lemma parseEntry_a1 (e : Str × Nat) : (parseEntry e).a1 = keyA1 e.1 := by
  unfold parseEntry keyA1
  rcases hsp : splitAnd e.1 [] with _ | ⟨x1, _ | ⟨x2, rest⟩⟩ <;> simp [hsp]

lemma keyA1_key_two {s1 s2 : Str} (h : (splitAnd (mkKey s1 s2) []).length = 2) :
    keyA1 (mkKey s1 s2) = s1 ++ [' '] := by
  simp only [keyA1, splitAnd_key_two h]

lemma filter_rows_eq (dl : List (Str × Nat)) (k : Str) :
    (dl.map parseEntry).filter (fun r => r.a1 = k)
      = (dl.filter (keyPred (fun key => keyA1 key = k))).map parseEntry := by
  rw [List.filter_map]
  congr 1
  apply List.filter_congr
  intro e _
  simp only [Function.comp, keyPred, parseEntry_a1]

lemma filter_block_eq {dist : Str → Str → Nat} {R : List Str} {s1 σ : Str}
    (h2 : ∀ s2 ∈ R, (splitAnd (mkKey s1 s2) []).length = 2) :
    (block dist R s1).filter (keyPred (fun key => keyA1 key = σ ++ [' ']))
      = if s1 = σ then block dist R σ else [] := by
  by_cases hs : s1 = σ
  · subst hs
    rw [if_pos rfl]
    apply List.filter_eq_self.mpr
    intro e he
    obtain ⟨s2, hs2, rfl⟩ := List.mem_map.mp he
    simp [keyPred, keyA1_key_two (h2 s2 hs2)]
  · rw [if_neg hs]
    apply List.filter_eq_nil_iff.mpr
    intro e he
    obtain ⟨s2, hs2, rfl⟩ := List.mem_map.mp he
    simp only [keyPred, keyA1_key_two (h2 s2 hs2), decide_eq_true_eq]
    intro hcontra
    exact hs (List.append_inj_left' hcontra rfl)

lemma ddf_group_flatten (dist : Str → Str → Nat) (R : List Str) (σ : Str) :
    ∀ M : List Str,
      ddfAux [] ((M.map (fun s1 => if s1 = σ then block dist R σ else [])).flatten)
        = if σ ∈ M then ddfAux [] (block dist R σ) else [] := by
  intro M
  induction M with
  | nil => simp [ddfAux]
  | cons s1 M' ih =>
    simp only [List.map_cons, List.flatten_cons]
    by_cases hs : s1 = σ
    · subst hs
      rw [if_pos rfl, if_pos (List.mem_cons_self _ _), ddfAux_append]
      have hrest : ddfAux (dkeys (block dist R s1) ++ [])
          ((M'.map (fun t => if t = s1 then block dist R s1 else [])).flatten)
            = [] := by
        apply ddfAux_all_seen
        intro e he
        obtain ⟨l, hl, hel⟩ := List.mem_flatten.mp he
        obtain ⟨t, ht, rfl⟩ := List.mem_map.mp hl
        by_cases htσ : t = s1
        · rw [if_pos htσ] at hel
          exact List.mem_append.mpr (Or.inl (List.mem_map.mpr ⟨e, hel, rfl⟩))
        · rw [if_neg htσ] at hel
          simp at hel
      rw [hrest, List.append_nil]
    · rw [if_neg hs, List.nil_append, ih]
      by_cases hm : σ ∈ M'
      · rw [if_pos hm, if_pos (List.mem_cons_of_mem _ hm)]
      · rw [if_neg hm, if_neg ?_]
        intro hmem
        rcases List.mem_cons.mp hmem with h | h
        · exact hs h.symm
        · exact hm h

lemma foldl_pick_fixed (b : SRow) : ∀ ys : List SRow, (∀ y ∈ ys, b.d ≤ y.d) →
    ys.foldl (fun b y => if y.d < b.d then y else b) b = b := by
  intro ys
  induction ys with
  | nil => intro _; rfl
  | cons y ys ih =>
    intro h
    simp only [List.foldl_cons]
    rw [if_neg (Nat.not_lt.mpr (h y (List.mem_cons_self _ _)))]
    exact ih (fun y' hy' => h y' (List.mem_cons_of_mem _ hy'))

lemma bestRow_append (x : SRow) (xs ys : List SRow)
    (h : ∀ y ∈ ys, (bestRow x xs).d ≤ y.d) :
    bestRow x (xs ++ ys) = bestRow x xs := by
  unfold bestRow
  rw [List.foldl_append]
  exact foldl_pick_fixed _ ys h

lemma selList_flatten_copies (v : List SRow) :
    ∀ ls : List (List SRow), (∀ w ∈ ls, w = v ∨ w = []) → v ∈ ls →
      selList ls.flatten = selList v := by
  intro ls
  induction ls with
  | nil =>
    intro _ hv
    simp at hv
  | cons w ls' ih =>
    intro hmem hv
    by_cases hvnil : v = []
    · subst hvnil
      have hall : ∀ u ∈ w :: ls', u = ([] : List SRow) := by
        intro u hu
        rcases hmem u hu with h | h <;> exact h
      rw [List.flatten_eq_nil_iff.mpr hall]
    · rcases hmem w (List.mem_cons_self _ _) with rfl | rfl
      · cases hvv : w with
        | nil => exact absurd hvv hvnil
        | cons x xs =>
          subst hvv
          simp only [List.flatten_cons, List.cons_append]
          show some (bestRow x (xs ++ ls'.flatten)) = some (bestRow x xs)
          congr 1
          apply bestRow_append
          intro y hy
          obtain ⟨w', hw', hyw⟩ := List.mem_flatten.mp hy
          have hyv : y ∈ x :: xs := by
            rcases hmem w' (List.mem_cons_of_mem _ hw') with rfl | rfl
            · exact hyw
            · simp at hyw
          rcases List.mem_cons.mp hyv with h | hmem'
          · rw [h]
            exact (bestRow_le xs x).1
          · exact (bestRow_le xs x).2 y hmem'
      · simp only [List.flatten_cons, List.nil_append]
        have hv' : v ∈ ls' := by
          rcases List.mem_cons.mp hv with h | h
          · exact absurd h hvnil
          · exact h
        exact ih (fun u hu => hmem u (List.mem_cons_of_mem _ hu)) hv'

lemma mem_dkeys_chunk_rows {dist : Str → Str → Nat} {chunks : List (List Str)}
    {R : List Str} {k : Str} :
    k ∈ dkeys (chunk_rows dist chunks R) ↔
      ∃ c ∈ chunks, k ∈ dkeys (dl_dist_func dist c R) := by
  unfold chunk_rows dkeys
  rw [List.map_flatten, List.mem_flatten]
  simp only [List.map_map, List.mem_map, Function.comp]
  constructor
  · rintro ⟨l, ⟨c, hc, rfl⟩, hl⟩
    exact ⟨c, hc, List.mem_map.mp hl⟩
  · rintro ⟨c, hc, hk⟩
    exact ⟨_, ⟨c, hc, rfl⟩, List.mem_map.mpr hk⟩

/-! # The claims -/

/-- C1: for every metric, left sequence and right sequence, whenever the
matching pass succeeds, the distance recorded in the MatchRecord selected
for a left value `s1` is less than or equal to every distance computed for
`s1`, i.e. to `dist s1 s2` for every right value `s2` (minimality of the
per-group `sort_values` ascending + `head(1)` selection). -/
theorem C1_selected_min (dist : Str → Str → Nat) (L R : List Str)
    (out : List SRow) (rec : SRow) (s1 : Str)
    (hok : fuzzy_pipeline dist L R = .ok out)
    (hrec : rec ∈ out) (ha1 : rec.a1 = s1 ++ [' ']) (hs1 : s1 ∈ L) :
    ∀ s2 ∈ R, rec.d ≤ dist s1 s2 := by
  intro s2 hs2
  obtain ⟨rows, hrows, hout⟩ := pipeline_ok_iff.mp hok
  subst hout
  obtain ⟨k, hk, hsel⟩ := mem_dl_dist_fin hrec
  obtain ⟨hrecmem, hreca1, hmin⟩ := selGroup_eq_some hsel
  have hrow := row_exists hrows hs1 hs2
  apply hmin _ hrow
  rw [← hreca1, ha1]

theorem C1_selected_min_witness :
    (⟨['a', ' '], [' ', 'b'], 1⟩ : SRow).d ≤ oneDist ['a'] ['b'] :=
  C1_selected_min oneDist [['a']] [['b']] [⟨['a', ' '], [' ', 'b'], 1⟩]
    ⟨['a', ' '], [' ', 'b'], 1⟩ ['a'] (by decide) (by decide) (by decide)
    (by decide) ['b'] (by decide)

/-- C2 counterexample: a duplicated left value collapses to a single dict
key, so the scoring pass yields 1 scored pair, not |L|×|R| = 2. -/
theorem C2_cross_count_cex :
    (dl_dist_func oneDist [['a'], ['a']] [['b']]).length = 1 ∧
    (dl_dist_func oneDist [['a'], ['a']] [['b']]).length
      ≠ [['a'], ['a']].length * [['b']].length := ⟨by decide, by decide⟩

/-- C2 (amended): the scoring pass produces exactly one scored pair per
distinct dict key `f"{s1} _and_ {s2}"` of the cross product L × R — that is
|L|×|R| pairs only when those keys are pairwise distinct; duplicate values
(or colliding keys) collapse to one entry. -/
theorem C2_cross_count_amended (dist : Str → Str → Nat) (L R : List Str) :
    (dl_dist_func dist L R).length = (crossKeys L R).dedup.length := by
  have hlen : (dl_dist_func dist L R).length = (dkeys (dl_dist_func dist L R)).length := by
    unfold dkeys
    rw [List.length_map]
  have hnd : (dkeys (dl_dist_func dist L R)).Nodup := by
    rw [dl_dist_func_eq_dictFold]
    exact dkeys_dictFold_nodup _ [] (by simp [dkeys])
  rw [hlen, ← List.Nodup.dedup hnd]
  apply dedup_length_congr
  intro x
  rw [mem_crossKeys]
  constructor
  · exact fun h => dkeys_func_subset h
  · rintro ⟨s1, hs1, s2, hs2, rfl⟩
    exact key_mem_dkeys_func hs1 hs2

/-- C4 counterexample: with the non-empty sequences L = ["a_and_b"] and
R = ["c"] the key splits into three fragments, the column rename raises the
length-mismatch ValueError, and no MatchRecord set is produced at all — in
particular none of size 1. -/
theorem C4_distinct_count_cex :
    fuzzy_pipeline oneDist [['a', '_', 'a', 'n', 'd', '_', 'b']] [['c']]
      = .error lengthMismatch := by decide

/-- C4 (amended): for non-empty left and right sequences none of whose
values contains the substring `"_and_"`, the matching pass succeeds and
emits exactly one MatchRecord per distinct left value: its output size is
the number of distinct values of the left sequence. -/
theorem C4_distinct_count_amended (dist : Str → Str → Nat) (L R : List Str)
    (hL : L ≠ []) (hR : R ≠ [])
    (hnc1 : ∀ s ∈ L, containsSub andSep s = false)
    (hnc2 : ∀ s ∈ R, containsSub andSep s = false) :
    ∃ out, fuzzy_pipeline dist L R = .ok out ∧ out.length = L.dedup.length := by
  have hcnt : ∀ e ∈ dl_dist_func dist L R, (splitAnd e.1 []).length = 2 := by
    intro e he
    have hkmem : e.1 ∈ dkeys (dl_dist_func dist L R) := List.mem_map.mpr ⟨e, he, rfl⟩
    obtain ⟨s1, hs1, s2, hs2, hk⟩ := dkeys_func_subset hkmem
    rw [hk, splitAnd_key (hnc1 s1 hs1) (hnc2 s2 hs2)]
    rfl
  have hne : dl_dist_func dist L R ≠ [] := by
    obtain ⟨l0, hl0⟩ := List.exists_mem_of_ne_nil L hL
    obtain ⟨r0, hr0⟩ := List.exists_mem_of_ne_nil R hR
    intro hnil
    have := @key_mem_dkeys_func dist L R l0 r0 hl0 hr0
    rw [hnil] at this
    simp [dkeys] at this
  have hok : parseRows (dl_dist_func dist L R)
      = .ok ((dl_dist_func dist L R).map parseEntry) := parseRows_ok_of hne hcnt
  refine ⟨dl_dist_fin ((dl_dist_func dist L R).map parseEntry),
    pipeline_ok_iff.mpr ⟨_, hok, rfl⟩, ?_⟩
  rw [dl_dist_fin_length]
  unfold sortedKeys
  rw [(List.perm_insertionSort keyLe _).length_eq]
  have hmem : ∀ x, x ∈ ((dl_dist_func dist L R).map parseEntry).map SRow.a1 ↔
      x ∈ L.map (fun s => s ++ [' ']) := by
    intro x
    constructor
    · intro hx
      obtain ⟨r, hr, rfl⟩ := List.mem_map.mp hx
      obtain ⟨s1, hs1, s2, hs2, rfl⟩ := rows_char hok hr
      exact List.mem_map.mpr ⟨s1, hs1, rfl⟩
    · intro hx
      obtain ⟨s1, hs1, rfl⟩ := List.mem_map.mp hx
      obtain ⟨r0, hr0⟩ := List.exists_mem_of_ne_nil R hR
      have := row_exists hok hs1 hr0
      exact List.mem_map.mpr ⟨_, this, rfl⟩
  rw [dedup_length_congr hmem]
  rw [List.dedup_map_of_injective
    (fun a b hab => List.append_inj_left' hab rfl) L]
  rw [List.length_map]

theorem C4_distinct_count_amended_witness :
    ∃ out, fuzzy_pipeline oneDist [['a'], ['a'], ['b']] [['x']] = .ok out ∧
      out.length = [['a'], ['a'], ['b']].dedup.length :=
  C4_distinct_count_amended oneDist [['a'], ['a'], ['b']] [['x']]
    (by decide) (by decide) (by decide) (by decide)

/-- C5 counterexample: with the left sequence ["b", "a"], the group for key
"a " is emitted before the one for "b ": the selection output is in sorted
group-key order, not in the first-seen order ["b ", "a "] the claim
states. -/
theorem C5_order_cex :
    (fuzzy_pipeline oneDist [['b'], ['a']] [['x']]).map (fun out => out.map SRow.a1)
        = .ok [['a', ' '], ['b', ' ']] ∧
    (fuzzy_pipeline oneDist [['b'], ['a']] [['x']]).map (fun out => out.map SRow.a1)
        ≠ .ok [['b', ' '], ['a', ' ']] := ⟨by decide, by decide⟩

/-- C5 (amended): the MatchRecords produced by the selection step are
ordered by ascending lexicographic order of the groupby key `address_1`
(the left value with the separator's leading space attached) — pandas'
sorted group keys — with one record per distinct key; the order is neither
the first-seen order of the left sequence nor the distance order. -/
theorem C5_order_amended (dist : Str → Str → Nat) (L R : List Str)
    (out : List SRow) (hok : fuzzy_pipeline dist L R = .ok out) :
    (out.map SRow.a1).Pairwise (fun x y => keyLe x y ∧ x ≠ y) := by
  obtain ⟨rows, hrows, hout⟩ := pipeline_ok_iff.mp hok
  subst hout
  rw [dl_dist_fin_map_a1]
  exact (sortedKeys_sorted rows).and (sortedKeys_nodup rows)

theorem C5_order_amended_witness :
    (([⟨['a', ' '], [' ', 'x'], 1⟩, ⟨['b', ' '], [' ', 'x'], 1⟩] : List SRow).map
      SRow.a1).Pairwise (fun x y => keyLe x y ∧ x ≠ y) :=
  C5_order_amended oneDist [['b'], ['a']] [['x']] _ (by decide)

/-- C6: splitting the left sequence into any contiguous chunks, scoring each
chunk against the whole right sequence, concatenating the chunk results and
selecting, produces the very same outcome as the unsplit pass — the same
MatchRecords (hence the same set of left-value-to-matched-value pairs), and
the same error when the reshape fails.  The single-chunk parallel variant is
the special case `chunks = [L]`. -/
theorem C6_partition_invariance (dist : Str → Str → Nat)
    (chunks : List (List Str)) (L R : List Str) (hJ : chunks.flatten = L) :
    chunked_pipeline dist chunks R = fuzzy_pipeline dist L R := by
  have hmemL : ∀ s : Str, s ∈ L ↔ ∃ c ∈ chunks, s ∈ c := by
    intro s
    rw [← hJ]
    exact List.mem_flatten
  have hkeys : ∀ k, k ∈ dkeys (chunk_rows dist chunks R) ↔
      k ∈ dkeys (dl_dist_func dist L R) := by
    intro k
    rw [mem_dkeys_chunk_rows]
    constructor
    · rintro ⟨c, hc, hk⟩
      obtain ⟨s1, hs1, s2, hs2, rfl⟩ := dkeys_func_subset hk
      exact key_mem_dkeys_func ((hmemL s1).mpr ⟨c, hc, hs1⟩) hs2
    · intro hk
      obtain ⟨s1, hs1, s2, hs2, rfl⟩ := dkeys_func_subset hk
      obtain ⟨c, hc, hs1c⟩ := (hmemL s1).mp hs1
      exact ⟨c, hc, key_mem_dkeys_func hs1c hs2⟩
  have hcond := parseRows_cond_congr hkeys
  by_cases hmax : (partCounts (dl_dist_func dist L R)).max? = some 2
  · have hmax2 : (partCounts (chunk_rows dist chunks R)).max? = some 2 := by
      rw [hcond]
      exact hmax
    have hok1 : parseRows (dl_dist_func dist L R)
        = .ok ((dl_dist_func dist L R).map parseEntry) := by
      unfold parseRows
      rw [if_pos hmax]
    have hok2 : parseRows (chunk_rows dist chunks R)
        = .ok ((chunk_rows dist chunks R).map parseEntry) := by
      unfold parseRows
      rw [if_pos hmax2]
    have hconsL : Consistent (pairsList dist L R) := pairsList_consistent hok1
    have hkey2 : ∀ s1 ∈ L, ∀ s2 ∈ R, (splitAnd (mkKey s1 s2) []).length = 2 :=
      succ_key_two hok1
    have hsets : ∀ k, (∃ r ∈ (chunk_rows dist chunks R).map parseEntry, r.a1 = k) ↔
        ∃ r ∈ (dl_dist_func dist L R).map parseEntry, r.a1 = k := by
      intro k
      constructor
      · rintro ⟨r, hr, rfl⟩
        obtain ⟨e, he, rfl⟩ := List.mem_map.mp hr
        obtain ⟨v, hv⟩ := exists_entry_of_mem_dkeys
          ((hkeys e.1).mp (List.mem_map.mpr ⟨e, he, rfl⟩))
        refine ⟨parseEntry (e.1, v), List.mem_map.mpr ⟨(e.1, v), hv, rfl⟩, ?_⟩
        rw [parseEntry_a1, parseEntry_a1]
      · rintro ⟨r, hr, rfl⟩
        obtain ⟨e, he, rfl⟩ := List.mem_map.mp hr
        obtain ⟨v, hv⟩ := exists_entry_of_mem_dkeys
          ((hkeys e.1).mpr (List.mem_map.mpr ⟨e, he, rfl⟩))
        refine ⟨parseEntry (e.1, v), List.mem_map.mpr ⟨(e.1, v), hv, rfl⟩, ?_⟩
        rw [parseEntry_a1, parseEntry_a1]
    have hsk : sortedKeys ((chunk_rows dist chunks R).map parseEntry)
        = sortedKeys ((dl_dist_func dist L R).map parseEntry) :=
      sortedKeys_congr hsets
    have hsel : ∀ k ∈ sortedKeys ((dl_dist_func dist L R).map parseEntry),
        selGroup ((chunk_rows dist chunks R).map parseEntry) k
          = selGroup ((dl_dist_func dist L R).map parseEntry) k := by
      intro k hk
      obtain ⟨r, hr, hka⟩ := mem_sortedKeys.mp hk
      obtain ⟨σ, hσL, τ, hτR, rfl⟩ := rows_char hok1 hr
      have hkeq : k = σ ++ [' '] := hka.symm
      subst hkeq
      have hgrp1 : (dl_dist_func dist L R).filter
          (keyPred (fun key => keyA1 key = σ ++ [' ']))
            = ddfAux [] (block dist R σ) := by
        rw [dl_dist_func_eq_ddf hconsL, ddfAux_filter, pairsList_eq_blocks,
          List.filter_flatten, List.map_map]
        have hblocks :
            L.map (List.filter (keyPred (fun key => keyA1 key = σ ++ [' ']))
              ∘ block dist R)
              = L.map (fun s1 => if s1 = σ then block dist R σ else []) := by
          apply List.map_congr_left
          intro s1 hs1
          exact filter_block_eq (fun s2 hs2 => hkey2 s1 hs1 s2 hs2)
        rw [hblocks, ddf_group_flatten, if_pos hσL]
      have hgrp2 : ∀ c ∈ chunks, (dl_dist_func dist c R).filter
          (keyPred (fun key => keyA1 key = σ ++ [' ']))
            = if σ ∈ c then ddfAux [] (block dist R σ) else [] := by
        intro c hc
        have hsubc : ∀ e ∈ pairsList dist c R, e ∈ pairsList dist L R := by
          intro e he
          obtain ⟨s1, hs1, s2, hs2, rfl⟩ := mem_pairsList.mp he
          exact mem_pairsList.mpr ⟨s1, (hmemL s1).mpr ⟨c, hc, hs1⟩, s2, hs2, rfl⟩
        rw [dl_dist_func_eq_ddf (consistent_mono hsubc hconsL), ddfAux_filter,
          pairsList_eq_blocks, List.filter_flatten, List.map_map]
        have hblocks :
            c.map (List.filter (keyPred (fun key => keyA1 key = σ ++ [' ']))
              ∘ block dist R)
              = c.map (fun s1 => if s1 = σ then block dist R σ else []) := by
          apply List.map_congr_left
          intro s1 hs1
          exact filter_block_eq
            (fun s2 hs2 => hkey2 s1 ((hmemL s1).mpr ⟨c, hc, hs1⟩) s2 hs2)
        rw [hblocks, ddf_group_flatten]
      unfold selGroup
      rw [filter_rows_eq, filter_rows_eq, hgrp1]
      have hflt : (chunk_rows dist chunks R).filter
          (keyPred (fun key => keyA1 key = σ ++ [' ']))
            = (chunks.map
                (fun c => if σ ∈ c then ddfAux [] (block dist R σ) else [])).flatten := by
        unfold chunk_rows
        rw [List.filter_flatten, List.map_map]
        congr 1
        apply List.map_congr_left
        intro c hc
        exact hgrp2 c hc
      rw [hflt, List.map_flatten, List.map_map]
      apply selList_flatten_copies
      · intro w hw
        obtain ⟨c, hc, rfl⟩ := List.mem_map.mp hw
        by_cases hσc : σ ∈ c
        · left
          simp [hσc]
        · right
          simp [hσc]
      · obtain ⟨c, hc, hσc⟩ := (hmemL σ).mp hσL
        apply List.mem_map.mpr
        refine ⟨c, hc, ?_⟩
        simp [hσc]
    unfold chunked_pipeline fuzzy_pipeline
    rw [hok1, hok2]
    simp only [Except.map]
    congr 1
    unfold dl_dist_fin
    rw [hsk]
    exact List.filterMap_congr hsel
  · have hmax2 : ¬ (partCounts (chunk_rows dist chunks R)).max? = some 2 := by
      rw [hcond]
      exact hmax
    unfold chunked_pipeline fuzzy_pipeline parseRows
    rw [if_neg hmax, if_neg hmax2]

theorem C6_partition_invariance_witness :
    chunked_pipeline oneDist [[['a']], [['b']]] [['x']]
      = fuzzy_pipeline oneDist [['a'], ['b']] [['x']] :=
  C6_partition_invariance oneDist [[['a']], [['b']]] [['a'], ['b']] [['x']]
    (by decide)

/-- C7 counterexample: an empty left sequence produces the empty dict, whose
frame has a single column after `reset_index`, so the two-name column rename
raises the length-mismatch ValueError instead of yielding an empty
MatchRecord set. -/
theorem C7_empty_cex :
    fuzzy_pipeline oneDist [] [['a'], ['b']] = .error lengthMismatch ∧
    fuzzy_pipeline oneDist [] [['a'], ['b']] ≠ .ok [] := ⟨by decide, by decide⟩

/-- C7 (amended): whenever the left or the right sequence is empty, the
matching pass raises the length-mismatch ValueError of the column-rename
step; it does not return an empty MatchRecord set. -/
theorem C7_empty_amended (dist : Str → Str → Nat) (L R : List Str)
    (h : L = [] ∨ R = []) :
    fuzzy_pipeline dist L R = .error lengthMismatch := by
  have hD : dl_dist_func dist L R = [] := by
    rcases h with rfl | rfl
    · rfl
    · unfold dl_dist_func
      have hfix : ∀ (M : List Str) (d : List (Str × Nat)),
          M.foldl (fun d2 s1 => ([] : List Str).foldl
            (fun d3 s2 => dictInsert d3 (mkKey s1 s2) (dist s1 s2)) d2) d = d := by
        intro M
        induction M with
        | nil => intro d; rfl
        | cons a as ih => intro d; exact ih d
      exact hfix L []
  unfold fuzzy_pipeline
  rw [hD]
  rfl

theorem C7_empty_amended_witness :
    fuzzy_pipeline oneDist [] [['a'], ['b']] = .error lengthMismatch :=
  C7_empty_amended oneDist [] [['a'], ['b']] (Or.inl rfl)

/-- C8: in the final merge (a left join of `data_both` onto `data2`), every
left row whose stripped matched value has no counterpart among the stripped
right keys still appears in the output, with its right-side fields `none`
(NaN); the join is a total function — no missed lookup can abort it — and
every output row carrying such an unmatched key has `none` on the right. -/
theorem C8_left_join_null {α β : Type} (both : List (Str × α)) (d2 : List (Str × β))
    (a : Str × α) (ha : a ∈ both)
    (hmiss : ∀ b ∈ d2, strip b.1 ≠ strip a.1) :
    ((strip a.1, a.2), (none : Option (Str × β))) ∈ data_fin both d2 ∧
    ∀ p ∈ data_fin both d2, p.1.1 = strip a.1 → p.2 = none := by
  have hfil : ∀ x : α, (d2.map (fun r => (strip r.1, r.2))).filter
      (fun b => b.1 = (strip a.1, x).1) = [] := by
    intro x
    rw [List.filter_eq_nil_iff]
    rintro b hb
    obtain ⟨b0, hb0, rfl⟩ := List.mem_map.mp hb
    simpa using hmiss b0 hb0
  constructor
  · unfold data_fin leftJoin
    apply List.mem_flatMap.mpr
    refine ⟨(strip a.1, a.2), List.mem_map.mpr ⟨a, ha, rfl⟩, ?_⟩
    rw [joinOne_of_no_match (hfil a.2)]
    simp
  · intro p hp hpk
    unfold data_fin leftJoin at hp
    obtain ⟨a', ha', hpj⟩ := List.mem_flatMap.mp hp
    obtain ⟨hp1, hcase⟩ := mem_joinOne hpj
    rcases hcase with h | ⟨b, hb, hbk, hpsome⟩
    · exact h
    · obtain ⟨b0, hb0, rfl⟩ := List.mem_map.mp hb
      rw [hp1] at hpk
      rw [hpk] at hbk
      exact absurd hbk (by simpa using hmiss b0 hb0)

theorem C8_left_join_null_witness :
    (((strip ['a'], 0), (none : Option (Str × Nat))) ∈
        data_fin [(['a'], 0)] [(['b'], 5)] ∧
      ∀ p ∈ data_fin [(['a'], (0 : Nat))] [(['b'], (5 : Nat))],
        p.1.1 = strip ['a'] → p.2 = none) :=
  C8_left_join_null [(['a'], 0)] [(['b'], 5)] (['a'], 0) (by decide) (by decide)

/-- C9: for strings without the substring `"_and_"`, encoding a pair as the
dict key `f"{s1} _and_ {s2}"`, splitting on `"_and_"` and trimming
whitespace recovers the pair (trimmed); and there are values containing
`"_and_"` for which the round trip fails. -/
theorem C9_key_roundtrip :
    (∀ s1 s2 : Str, containsSub andSep s1 = false → containsSub andSep s2 = false →
      (splitAnd (mkKey s1 s2) []).map strip = [strip s1, strip s2]) ∧
    ∃ s1 s2 : Str, (containsSub andSep s1 = true ∨ containsSub andSep s2 = true) ∧
      (splitAnd (mkKey s1 s2) []).map strip ≠ [strip s1, strip s2] := by
  constructor
  · intro s1 s2 h1 h2
    rw [splitAnd_key h1 h2]
    simp only [List.map_cons, List.map_nil]
    rw [strip_append_space, strip_cons_space]
  · exact ⟨['a', '_', 'a', 'n', 'd', '_', 'b'], ['c'], by decide, by decide⟩

theorem C9_key_roundtrip_witness :
    (splitAnd (mkKey ['a'] ['b']) []).map strip = [strip ['a'], strip ['b']] :=
  C9_key_roundtrip.1 ['a'] ['b'] (by decide) (by decide)

/-- C10: the scoring pass reads nothing but its two input sequences: two
runs on equal inputs are equal as whole dicts and key by key, and the
parallel driver's only chunk carries that same dict. -/
theorem C10_deterministic (dist : Str → Str → Nat) (a1 a2 b1 b2 : List Str)
    (h1 : a1 = b1) (h2 : a2 = b2) :
    dl_dist_func dist a1 a2 = dl_dist_func dist b1 b2 ∧
    (∀ k, lookupD (dl_dist_func dist a1 a2) k = lookupD (dl_dist_func dist b1 b2) k) ∧
    dl_dist_par dist a1 a2 = [dl_dist_func dist b1 b2] := by
  subst h1
  subst h2
  exact ⟨rfl, fun _ => rfl, rfl⟩

theorem C10_deterministic_witness :
    dl_dist_func oneDist [['a']] [['b']] = dl_dist_func oneDist [['a']] [['b']] ∧
    (∀ k, lookupD (dl_dist_func oneDist [['a']] [['b']]) k
      = lookupD (dl_dist_func oneDist [['a']] [['b']]) k) ∧
    dl_dist_par oneDist [['a']] [['b']] = [dl_dist_func oneDist [['a']] [['b']]] :=
  C10_deterministic oneDist [['a']] [['b']] [['a']] [['b']] rfl rfl

end FuzzyJoin
